import Mathlib

/-
Shallow embedding of the rope implementation in src/rope.rs.

Modelling conventions:
* `usize` is modelled as `Nat` with release-mode wrapping arithmetic
  (explicitly reduced modulo 2^64 wherever the source can underflow or
  overflow: `Leaf::new` on the empty string, `weight`, `report`'s range
  arithmetic, and `delete`'s `end - start + 1`).
* A Rust panic (an `expect` on a missing child or an invalid string
  slice) is modelled as `none` in an outer `Option` layer; the expected
  miss `None` of the source is the inner `Option`.
* Character buffers are `List Char` (the source mixes byte slicing with
  `chars()`; on single-byte characters the two coincide and the spec
  speaks uniformly of characters).
* `Rope::split` takes `&mut self` and reads the mutated right child back
  via `Option::take`, so the embedding returns a triple
  `(left, right, residue)` where `residue` is the state `*self` is left
  in; public callers discard the residue exactly as the source drops or
  shadows the consumed rope.
-/

/-- 2^64, the modulus of `usize` arithmetic. -/
def W : Nat := 18446744073709551616

/-- Wrapping `usize` subtraction. -/
def wsub (a b : Nat) : Nat := (a % W + W - b % W) % W

/-- Wrapping `usize` addition. -/
def wadd (a b : Nat) : Nat := (a + b) % W

/-- `Leaf { buf, start, end }` of src/rope.rs; `end` is a Lean keyword and is
named `stop` here. -/
structure Leaf where
  buf : List Char
  start : Nat
  stop : Nat
  deriving DecidableEq, Repr

/-- `Leaf::new`: `start = 0`, `end = s.len() - 1` (wrapping on the empty
string). -/
def Leaf.new (s : List Char) : Leaf :=
  { buf := s, start := 0, stop := wsub s.length 1 }

/-- `Leaf::weight`: `end - start + 1` in `usize` arithmetic. -/
def Leaf.weight (lf : Leaf) : Nat := wadd (wsub lf.stop lf.start) 1

/-- `Leaf::split`. The interior branch is `buf.split_at(start + offset)`,
which panics (`none`) when the index exceeds the buffer length. -/
def Leaf.split (lf : Leaf) (offset : Nat) : Option (Leaf × Leaf) :=
  if offset = 0 then some (Leaf.new [], Leaf.new lf.buf)
  else if lf.weight ≤ offset then some (Leaf.new lf.buf, Leaf.new [])
  else
    if wadd lf.start offset ≤ lf.buf.length then
      some (Leaf.new (lf.buf.take (wadd lf.start offset)),
        Leaf.new (lf.buf.drop (wadd lf.start offset)))
    else none

/-- `Leaf::report`: guarded by `start >= self.start && end <= self.end`, then
slices `buf[start..end + 1]`; an invalid slice (lower bound above upper, or
upper bound past the buffer) is a panic (`none`), a failed guard is the
expected miss (`some none`). -/
def Leaf.report (lf : Leaf) (s e : Nat) : Option (Option (List Char)) :=
  if lf.start ≤ s ∧ e ≤ lf.stop then
    let hi := wadd e 1
    if s ≤ hi ∧ hi ≤ lf.buf.length then
      some (some ((lf.buf.drop s).take (hi - s)))
    else none
  else some none

mutual
/-- `enum Rope { Node(Node), Leaf(Leaf) }` with
`Node { weight, left, right }`. -/
inductive Rope where
  | leaf : Leaf → Rope
  | node : Nat → ORope → ORope → Rope
  deriving DecidableEq, Repr

/-- `Option<Box<Rope>>`, the child slots of a `Node`. -/
inductive ORope where
  | none : ORope
  | some : Rope → ORope
  deriving DecidableEq, Repr
end

/-- `Rope::new`. -/
def Rope.new (s : List Char) : Rope := Rope.leaf (Leaf.new s)

/-- `Rope::buf`: the backing buffer of a leaf, absent on a node. -/
def Rope.buf : Rope → Option (List Char)
  | .leaf lf => some lf.buf
  | .node _ _ _ => none

/-- `Rope::index`. On a leaf: `buf.chars().nth(i)`. On a node the source
branches left on `i <= weight` (the `?` on a missing child is the expected
miss `none`, not a panic). -/
def Rope.index : Rope → Nat → Option Char
  | .leaf lf, i => lf.buf.get? i
  | .node w l r, i =>
    if i ≤ w then
      match l with
      | .none => none
      | .some lc => lc.index i
    else
      match r with
      | .none => none
      | .some rc => rc.index (i - w)

/-- `Rope::weight`. -/
def Rope.weight : Rope → Nat
  | .leaf lf => lf.weight
  | .node w _ _ => w

/-- `Rope::length`: leaf weight, or `weight + right.length()`; a missing
right child is a panic (`expect("right node cannot be None")`). -/
def Rope.length : Rope → Option Nat
  | .leaf lf => some lf.weight
  | .node w _ r =>
    match r with
    | .none => none
    | .some rc => (rc.length).map (wadd w)

/-- `Rope::is_leaf`. -/
def Rope.is_leaf : Rope → Bool
  | .leaf _ => true
  | .node _ _ _ => false

/-- `Rope::is_node`. -/
def Rope.is_node : Rope → Bool
  | .leaf _ => false
  | .node _ _ _ => true

/-- `Rope::join`: a new node whose weight is `left.length()` (which can
panic). -/
def Rope.join (l r : Rope) : Option Rope :=
  (l.length).map (fun n => Rope.node n (.some l) (.some r))

/-- Continuation of `Rope::split` in the `offset < weight` branch, applied to
the recursive split of the left child: `take` the right child (panic if
missing), rejoin it after the split remainder, and leave the residue
`Node { weight, left: Some(left residue), right: None }` behind. -/
def afterSplitLeft (res : Option (Rope × Rope × Rope)) (w : Nat) (r : ORope) :
    Option (Rope × Rope × Rope) :=
  match res with
  | Option.none => none
  | Option.some (sl, sr, lres) =>
    match r with
    | .none => none
    | .some rc =>
      match Rope.join sr rc with
      | Option.none => none
      | Option.some j => some (sl, j, Rope.node w (.some lres) .none)

/-- Continuation of `Rope::split` in the `offset >= weight` branch, applied to
the recursive split of the right child: `node.right.take()` reads back the
right child's residue, which is what gets joined onto the split prefix; the
untouched left child stays in the residue
`Node { weight, left, right: None }`. -/
def afterSplitRight (res : Option (Rope × Rope × Rope)) (w : Nat) (l : ORope) :
    Option (Rope × Rope × Rope) :=
  match res with
  | Option.none => none
  | Option.some (sl, sr, rres) =>
    match Rope.join sl rres with
    | Option.none => none
    | Option.some j => some (j, sr, Rope.node w l .none)

/-- `Rope::split(&mut self, offset)`. Returns `(left, right, residue)`:
the pair the source returns plus the state `*self` is left in. -/
def Rope.split : Rope → Nat → Option (Rope × Rope × Rope)
  | .leaf lf, offset =>
    match lf.split offset with
    | Option.none => none
    | Option.some (a, b) => some (.leaf a, .leaf b, .leaf lf)
  | .node w l r, offset =>
    if offset < w then
      match l with
      | .none => none
      | .some lc => afterSplitLeft (lc.split offset) w r
    else
      match r with
      | .none => none
      | .some rc => afterSplitRight (rc.split (offset - w)) w l

/-- `Rope::insert`. -/
def Rope.insert (rp : Rope) (s : List Char) (offset : Nat) : Option Rope :=
  match rp.split offset with
  | Option.none => none
  | Option.some (l, r, _) =>
    match Rope.join l (Rope.new s) with
    | Option.none => none
    | Option.some tmp => Rope.join tmp r

/-- `Rope::delete(start, end)`: `end - start + 1` in wrapping `usize`
arithmetic. -/
def Rope.delete (rp : Rope) (s e : Nat) : Option Rope :=
  match rp.split s with
  | Option.none => none
  | Option.some (l, r, _) =>
    match r.split (wadd (wsub e s) 1) with
    | Option.none => none
    | Option.some (_, r2, _) => Rope.join l r2

/-- Combination of the two sub-reports of `Rope::report`'s spanning branch,
in the source's evaluation order: a panic or miss in the left sub-report
short-circuits (the right one is never evaluated in the source), then a
panic or miss of the right one, else the concatenation. -/
def combineReports (a b : Option (Option (List Char))) :
    Option (Option (List Char)) :=
  match a with
  | Option.none => none
  | Option.some Option.none => some none
  | Option.some (Option.some ls) =>
    match b with
    | Option.none => none
    | Option.some Option.none => some none
    | Option.some (Option.some rs) => some (some (ls ++ rs))

/-- `Rope::report`. `len = end - start + 1` (wrapping); a missing child hit
by `as_ref()?` is the expected miss, a panic in a sub-report propagates.
A missing right child is only noticed after the left sub-report succeeds,
as in the source. -/
def Rope.report : Rope → Nat → Nat → Option (Option (List Char))
  | .leaf lf, s, e => lf.report s e
  | .node w l r, s, e =>
    let len := wadd (wsub e s) 1
    if len ≤ w then
      match l with
      | .none => some none
      | .some lc => lc.report s e
    else
      match l with
      | .none => some none
      | .some lc =>
        combineReports (lc.report s (wsub w 1))
          (match r with
           | .none => some none
           | .some rc => rc.report 0 (wsub (wsub len w) 1))

/-- `RopeIterator { rope, index }`. -/
structure RopeIterator where
  rope : Rope
  index : Nat

/-- `Rope::into_iter`. -/
def Rope.into_iter (rp : Rope) : RopeIterator := { rope := rp, index := 0 }

/-- `RopeIterator::next`: reads `rope.index(self.index)`, increments the
position, returns the read. -/
def RopeIterator.next (it : RopeIterator) : Option Char × RopeIterator :=
  (it.rope.index it.index, { rope := it.rope, index := wadd it.index 1 })

/-- The result and state after the k-th call to `next` (0-based): `stepN it k`
is the value yielded by step `k`. -/
def RopeIterator.stepN (it : RopeIterator) : Nat → Option Char × RopeIterator
  | 0 => it.next
  | k + 1 => ((it.next).2).stepN k

/-- The "full-range report" `report(0, length() - 1)` used by the spec's
round-trip properties (with `length() - 1` computed in `usize`). -/
def Rope.fullReport (rp : Rope) : Option (Option (List Char)) :=
  match rp.length with
  | Option.none => none
  | Option.some n => rp.report 0 (wsub n 1)

/-- The implicit leaf invariant: the leaf's view covers its entire backing
buffer, `start == 0` and `end == buf.len() - 1` (wrapping on the empty
buffer). -/
def LeafWF (lf : Leaf) : Prop :=
  lf.start = 0 ∧ lf.stop = wsub lf.buf.length 1

mutual
/-- Every leaf in the tree satisfies `LeafWF`. -/
def Rope.wf : Rope → Prop
  | .leaf lf => LeafWF lf
  | .node _ l r => l.wf ∧ r.wf

/-- `Rope.wf` lifted to a child slot; a missing child constrains nothing. -/
def ORope.wf : ORope → Prop
  | .none => True
  | .some rp => rp.wf
end

mutual
/-- Node count, used as a measure for induction over ropes. -/
def Rope.sz : Rope → Nat
  | .leaf _ => 1
  | .node _ l r => l.sz + r.sz + 1

/-- Node count of a child slot. -/
def ORope.sz : ORope → Nat
  | .none => 0
  | .some rp => rp.sz + 1
end

/-- The ropes a client can hold: results of the public constructors and of
the operations derived from them (`new`, `join`, `split` — both returned
parts and the consumed source's residue — `insert`, `delete`). -/
inductive Reachable : Rope → Prop where
  | new (s : List Char) : Reachable (Rope.new s)
  | join (a b c : Rope) : Reachable a → Reachable b →
      Rope.join a b = some c → Reachable c
  | splitLeft (a : Rope) (o : Nat) (t : Rope × Rope × Rope) :
      Reachable a → a.split o = some t → Reachable t.1
  | splitRight (a : Rope) (o : Nat) (t : Rope × Rope × Rope) :
      Reachable a → a.split o = some t → Reachable t.2.1
  | splitResidue (a : Rope) (o : Nat) (t : Rope × Rope × Rope) :
      Reachable a → a.split o = some t → Reachable t.2.2
  | insert (a : Rope) (s : List Char) (o : Nat) (b : Rope) :
      Reachable a → a.insert s o = some b → Reachable b
  | delete (a : Rope) (i j : Nat) (b : Rope) :
      Reachable a → a.delete i j = some b → Reachable b

-- Sanity checks mirroring the source's unit tests.
example : (Rope.new "Hello, World!".toList).index 1 = some 'e' := by decide
example : (Rope.new "Hello, World!".toList).index 12 = some '!' := by decide
example : (Rope.new "Hello, World!".toList).report 1 5
    = some (some "ello,".toList) := by decide
example : (Rope.join (Rope.new "Hello,".toList) (Rope.new " World!".toList)).map
    (fun rp => (rp.index 1, rp.index 0, rp.index 3, rp.index 12))
    = some (some 'e', some 'H', some 'l', some '!') := by decide
example : ((Rope.new "Hello, World!".toList).split 5).map
    (fun t => (t.1.buf, t.2.1.buf))
    = some (some "Hello".toList, some ", World!".toList) := by decide
example : ((Rope.new "Hello, World!".toList).split 5).map
    (fun t => (t.1.report 0 4, t.2.1.report 0 7, t.2.1.report 0 8))
    = some (some (some "Hello".toList), some (some ", World!".toList),
        some Option.none) := by decide
example : ((Rope.new "Hello, World!".toList).delete 2 4).bind Rope.fullReport
    = some (some "He, World!".toList) := by decide
example : ((Rope.new "Hello, World!".toList).insert " Cruel".toList 6).bind
    Rope.fullReport = some (some "Hello, Cruel World!".toList) := by decide

/-! ### Arithmetic facts about the wrapped length computations -/

theorem wsub_zero_right (x : Nat) : wsub x 0 = x % W := by
  simp [wsub, Nat.add_mod_right]

theorem wsub_lt (a b : Nat) : wsub a b < W := by
  have : 0 < W := by decide
  exact Nat.mod_lt _ this

theorem wrap_pred_succ (L : Nat) (h : L < W) : wadd (wsub L 1) 1 = L := by
  simp only [wadd, wsub, W] at *
  omega

theorem Leaf.new_weight (s : List Char) (h : s.length < W) :
    (Leaf.new s).weight = s.length := by
  have h1 : wsub s.length 1 < W := wsub_lt _ _
  simp only [Leaf.new, Leaf.weight, wsub_zero_right, Nat.mod_eq_of_lt h1]
  exact wrap_pred_succ _ h

theorem Leaf.new_buf (s : List Char) : (Leaf.new s).buf = s := rfl

theorem Rope.report_leaf (lf : Leaf) (s e : Nat) :
    Rope.report (.leaf lf) s e = lf.report s e := by
  simp [Rope.report]

theorem Rope.length_leaf (lf : Leaf) :
    Rope.length (.leaf lf) = some lf.weight := by
  simp [Rope.length]

theorem Rope.fullReport_leaf (lf : Leaf) :
    Rope.fullReport (.leaf lf) = lf.report 0 (wsub lf.weight 1) := by
  simp [Rope.fullReport, Rope.length_leaf, Rope.report_leaf]

theorem leaf_new_report_full (s : List Char) (h : s.length < W) :
    Leaf.report (Leaf.new s) 0 (wsub s.length 1) = some (some s) := by
  have hrange : wadd (wsub s.length 1) 1 = s.length := wrap_pred_succ _ h
  simp only [Leaf.report, Leaf.new, hrange]
  rw [if_pos ⟨Nat.le_refl 0, Nat.le_refl _⟩,
    if_pos ⟨Nat.zero_le _, Nat.le_refl _⟩]
  simp

theorem leaf_new_fullReport (s : List Char) (h : s.length < W) :
    (Rope.leaf (Leaf.new s)).fullReport = some (some s) := by
  rw [Rope.fullReport_leaf, Leaf.new_weight s h]
  exact leaf_new_report_full s h

/-! ### C5: length of a fresh rope -/

/-- C5: for every string `s` (including the empty string),
`new(s).length()` equals `len(s)`. -/
theorem C5_new_length (s : List Char) (h : s.length < W) :
    (Rope.new s).length = some s.length := by
  rw [Rope.new, Rope.length_leaf, Leaf.new_weight s h]

theorem C5_witness : (Rope.new ['h', 'i']).length = some 2 :=
  C5_new_length ['h', 'i'] (by decide)

/-! ### C7: leaf split boundary inputs -/

/-- C7: on a whole-buffer leaf, `split(0)` returns
`(empty leaf, leaf holding the full content)` and `split(offset)` with
`offset >= weight()` returns `(leaf holding the full content, empty leaf)`;
neither boundary input fails (both return `some`), and the leaf produced on
the short side is empty (weight `0`). -/
theorem C7_leaf_split_boundary (lf : Leaf) (offset : Nat)
    (h0 : lf.start = 0) (h1 : lf.stop = wsub lf.buf.length 1)
    (h2 : lf.buf.length < W) :
    lf.split 0 = some (Leaf.new [], Leaf.new lf.buf) ∧
      (lf.weight ≤ offset →
        lf.split offset = some (Leaf.new lf.buf, Leaf.new [])) ∧
      (Leaf.new []).weight = 0 := by
  have hw : lf.weight = lf.buf.length := by
    have hsame : lf.weight = (Leaf.new lf.buf).weight := by
      simp [Leaf.weight, Leaf.new, h0, h1]
    rw [hsame, Leaf.new_weight _ h2]
  refine ⟨by rw [Leaf.split]; simp, ?_, by decide⟩
  intro hle
  by_cases hz : offset = 0
  · subst hz
    have hlen : lf.buf.length = 0 := by omega
    have hnil : lf.buf = [] := List.length_eq_zero.mp hlen
    rw [Leaf.split, hnil]
    simp
  · rw [Leaf.split, if_neg hz, if_pos hle]

theorem C7_witness :
    (Leaf.new ['a']).split 0 = some (Leaf.new [], Leaf.new ['a']) ∧
      ((Leaf.new ['a']).weight ≤ 5 →
        (Leaf.new ['a']).split 5 = some (Leaf.new ['a'], Leaf.new [])) ∧
      (Leaf.new []).weight = 0 :=
  C7_leaf_split_boundary (Leaf.new ['a']) 5 rfl rfl (by decide)

/-! ### C1: split/join round-trip on a fresh rope -/

/-- C1: for every string `s` and every offset in `[0, len(s)]`, splitting
`new(s)` at the offset succeeds and the two parts' full-range reports are
exactly the characters `[0, offset)` and `[offset, len(s))` of `s` — disjoint
ranges whose concatenation reproduces `s` exactly. -/
theorem C1_split_join_round_trip (s : List Char) (offset : Nat)
    (hL : s.length < W) (ho : offset ≤ s.length) :
    ∃ l r rest, (Rope.new s).split offset = some (l, r, rest) ∧
      l.fullReport = some (some (s.take offset)) ∧
      r.fullReport = some (some (s.drop offset)) ∧
      s.take offset ++ s.drop offset = s := by
  have hlen0 : ([] : List Char).length < W := by decide
  by_cases h0 : offset = 0
  · subst h0
    refine ⟨.leaf (Leaf.new []), .leaf (Leaf.new s), .leaf (Leaf.new s),
      ?_, ?_, ?_, by simp⟩
    · have hsplit : (Leaf.new s).split 0 = some (Leaf.new [], Leaf.new s) := by
        rw [Leaf.split]; simp [Leaf.new_buf]
      simp [Rope.new, Rope.split, hsplit]
    · rw [leaf_new_fullReport [] hlen0]; simp
    · rw [leaf_new_fullReport s hL]; simp
  · by_cases h1 : s.length ≤ offset
    · have hoeq : offset = s.length := le_antisymm ho h1
      have hwle : (Leaf.new s).weight ≤ offset := by
        rw [Leaf.new_weight s hL]; omega
      have hsplit : (Leaf.new s).split offset
          = some (Leaf.new s, Leaf.new []) := by
        rw [Leaf.split, if_neg h0, if_pos hwle, Leaf.new_buf]
      refine ⟨.leaf (Leaf.new s), .leaf (Leaf.new []), .leaf (Leaf.new s),
        ?_, ?_, ?_, by simp⟩
      · simp [Rope.new, Rope.split, hsplit]
      · rw [leaf_new_fullReport s hL]; simp [hoeq]
      · rw [leaf_new_fullReport [] hlen0]; simp [hoeq]
    · push_neg at h1
      have hofW : offset < W := lt_trans h1 hL
      have hwgt : ¬ (Leaf.new s).weight ≤ offset := by
        rw [Leaf.new_weight s hL]; omega
      have hmid : wadd (Leaf.new s).start offset = offset := by
        simp [Leaf.new, wadd, Nat.mod_eq_of_lt hofW]
      have hsplit : (Leaf.new s).split offset
          = some (Leaf.new (s.take offset), Leaf.new (s.drop offset)) := by
        rw [Leaf.split, if_neg h0, if_neg hwgt, hmid, Leaf.new_buf]
        rw [if_pos (le_of_lt h1)]
      have htk : (s.take offset).length < W := by
        rw [List.length_take]; omega
      have hdp : (s.drop offset).length < W := by
        rw [List.length_drop]; omega
      refine ⟨.leaf (Leaf.new (s.take offset)),
        .leaf (Leaf.new (s.drop offset)), .leaf (Leaf.new s),
        ?_, ?_, ?_, by simp⟩
      · simp [Rope.new, Rope.split, hsplit]
      · exact leaf_new_fullReport _ htk
      · exact leaf_new_fullReport _ hdp

theorem C1_witness :
    ∃ l r rest, (Rope.new ['a', 'b']).split 1 = some (l, r, rest) ∧
      l.fullReport = some (some (['a', 'b'].take 1)) ∧
      r.fullReport = some (some (['a', 'b'].drop 1)) ∧
      ['a', 'b'].take 1 ++ ['a', 'b'].drop 1 = ['a', 'b'] :=
  C1_split_join_round_trip ['a', 'b'] 1 (by decide) (by decide)

/-! ### C2, C3, C4, C6: concrete evaluations exhibiting the defects -/

/-- C2: the claim says the right-branch split returns
`(join(left_child, l), r)`. Evaluating the code on
`join(new("ab"), new("cd")).split(3)` instead yields the prefix
`join(l, right_child_residue) = join("c", "cd")` — the original left
subtree `"ab"` is dropped and the just-split right child is rejoined —
so the prefix's full-range report is `"ccd"` instead of `"abc"`. -/
theorem C2_split_right_rejoins_wrong_child :
    (Rope.join (Rope.new ['a', 'b']) (Rope.new ['c', 'd'])).bind
        (fun rp => rp.split 3)
      = some (Rope.node 1 (.some (.leaf (Leaf.new ['c'])))
            (.some (.leaf (Leaf.new ['c', 'd']))),
          .leaf (Leaf.new ['d']),
          Rope.node 2 (.some (.leaf (Leaf.new ['a', 'b']))) .none) ∧
      ((Rope.join (Rope.new ['a', 'b']) (Rope.new ['c', 'd'])).bind
          (fun rp => rp.split 3)).map (fun t => t.1.fullReport)
        = some (some (some ['c', 'c', 'd'])) := by
  constructor <;> rfl

/-- C3: the claim says `index` recurses left exactly when `i < weight`
(strict). The code tests `i <= weight`: on `join(new("a"), new("b"))`
(weight 1, length 2) the boundary index `i = 1` is sent into the left
child and comes back absent, although the logical character there is
`'b'`. -/
theorem C3_index_boundary_not_strict :
    (Rope.join (Rope.new ['a']) (Rope.new ['b'])).map
        (fun rp => (rp.index 0, rp.index 1, rp.weight, rp.length))
      = some (some 'a', Option.none, 1, some 2) := by
  rfl

/-- C4: the claim says `index(i)` returns the `i`-th character for every
`i < length()`. On `join(new("ab"), new("cd"))` the length is 4 but
`index(2)` is absent (the `i <= weight` comparison sends it into the left
child), although the logical character at position 2 is `'c'`. -/
theorem C4_index_misses_inside_range :
    (Rope.join (Rope.new ['a', 'b']) (Rope.new ['c', 'd'])).map
        (fun rp => (rp.length, rp.index 2))
      = some (some 4, Option.none) := by
  rfl

/-- C6: the claim says `delete(start, end)` removes exactly `[start, end]`.
On the two-leaf rope `join(new("a"), new("b"))` (content `"ab"`),
`delete(1, 1)` should leave `"a"`, but the defective right-branch split
makes the result report `"b"`; on the equivalent single-leaf rope
`new("ab")` the same call correctly leaves `"a"`. -/
theorem C6_delete_wrong_past_node_boundary :
    ((Rope.join (Rope.new ['a']) (Rope.new ['b'])).bind
        (fun rp => rp.delete 1 1)).bind Rope.fullReport
      = some (some ['b']) ∧
      ((Rope.new ['a', 'b']).delete 1 1).bind Rope.fullReport
        = some (some ['a']) := by
  constructor <;> rfl

/-! ### C10: report on a reversed range -/

/-- C10 counterexample: the claim's example input `report(1, 0)` does not
panic under wrapping `usize` arithmetic: on a leaf the slice `buf[1..0+1]`
is the valid empty slice and the call returns `Some("")` (not absence, not
a panic), and on a node `end - start + 1` wraps to `0`, delegating left
with the same outcome. -/
theorem C10_counterexample :
    (Rope.new ['a', 'b', 'c']).report 1 0 = some (some []) ∧
      (Rope.join (Rope.new ['a', 'b']) (Rope.new ['c', 'd'])).map
        (fun rp => rp.report 1 0) = some (some (some [])) := by
  constructor <;> rfl

/-- C10 (amended): there is an input with `end < start` on which `report`
panics rather than returning absence — on a leaf, `report(2, 0)` attempts
the invalid slice `buf[2..1]` — so `report` is total only under
`start <= end`. -/
theorem C10_report_reversed_range_panics :
    (Rope.new ['a', 'b', 'c']).report 2 0 = none ∧ 0 < 2 := by
  constructor <;> first | rfl | decide

/-! ### C8: the iterator -/

theorem stepN_fst (rp : Rope) (i k : Nat) (h : i + k < W) :
    ((RopeIterator.mk rp i).stepN k).1 = rp.index (i + k) := by
  induction k generalizing i with
  | zero => simp [RopeIterator.stepN, RopeIterator.next]
  | succ k ih =>
    have hi : wadd i 1 = i + 1 := by
      simp only [wadd]
      exact Nat.mod_eq_of_lt (by omega)
    have h2 : (i + 1) + k < W := by omega
    show (((RopeIterator.mk rp i).next.2).stepN k).1 = _
    simp only [RopeIterator.next, hi]
    rw [ih (i + 1) h2]
    congr 1
    omega

/-- C8 counterexample: the iterator does not stop producing elements after
the first absent `index`: on `join(new("ab"), new("cde"))` step 2 yields
nothing (the `i <= weight` defect sends index 2 into the left child) but
step 3 yields `'d'` again. -/
theorem C8_counterexample :
    (Rope.join (Rope.new ['a', 'b']) (Rope.new ['c', 'd', 'e'])).map
        (fun rp => (((rp.into_iter).stepN 2).1, ((rp.into_iter).stepN 3).1))
      = some (Option.none, some 'd') := by
  rfl

/-- C8 (amended): the k-th step of the iterator produced from a rope yields
exactly `index(k)` (position starts at 0 and is incremented after each
step); iterating `new("Hello!")` yields `H, e, l, l, o, !` at steps 0-5 and
nothing at every later step. After an absent `index` on a general rope the
iterator does not necessarily terminate (see the counterexample), because
`index` can be absent below the length. -/
theorem C8_iterator_steps :
    (∀ (rp : Rope) (k : Nat), k < W →
        ((rp.into_iter).stepN k).1 = rp.index k) ∧
      ((((Rope.new ['H', 'e', 'l', 'l', 'o', '!']).into_iter).stepN 0).1
          = some 'H' ∧
        (((Rope.new ['H', 'e', 'l', 'l', 'o', '!']).into_iter).stepN 1).1
          = some 'e' ∧
        (((Rope.new ['H', 'e', 'l', 'l', 'o', '!']).into_iter).stepN 2).1
          = some 'l' ∧
        (((Rope.new ['H', 'e', 'l', 'l', 'o', '!']).into_iter).stepN 3).1
          = some 'l' ∧
        (((Rope.new ['H', 'e', 'l', 'l', 'o', '!']).into_iter).stepN 4).1
          = some 'o' ∧
        (((Rope.new ['H', 'e', 'l', 'l', 'o', '!']).into_iter).stepN 5).1
          = some '!') ∧
      (∀ k : Nat, 6 ≤ k → k < W →
        (((Rope.new ['H', 'e', 'l', 'l', 'o', '!']).into_iter).stepN k).1
          = Option.none) := by
  have hgen : ∀ (rp : Rope) (k : Nat), k < W →
      ((rp.into_iter).stepN k).1 = rp.index k := by
    intro rp k hk
    have h := stepN_fst rp 0 k (by omega)
    simpa [Rope.into_iter] using h
  refine ⟨hgen, ⟨rfl, rfl, rfl, rfl, rfl, rfl⟩, ?_⟩
  intro k h6 hk
  rw [hgen _ k hk]
  show (Leaf.new ['H', 'e', 'l', 'l', 'o', '!']).buf.get? k = Option.none
  rw [Leaf.new_buf]
  exact List.get?_eq_none.mpr (by simp; omega)

theorem C8_witness :
    ((Rope.new ['h', 'i']).into_iter.stepN 1).1
      = (Rope.new ['h', 'i']).index 1 :=
  C8_iterator_steps.1 (Rope.new ['h', 'i']) 1 (by decide)

/-! ### C9: the whole-buffer-leaf invariant -/

theorem Rope.sz_pos (a : Rope) : 1 ≤ a.sz := by
  cases a with
  | leaf lf => simp [Rope.sz]
  | node w l r => simp [Rope.sz]

theorem LeafWF_new (s : List Char) : LeafWF (Leaf.new s) := ⟨rfl, rfl⟩

theorem Rope.wf_node_iff (w : Nat) (l r : ORope) :
    (Rope.node w l r).wf ↔ l.wf ∧ r.wf := by
  simp [Rope.wf]

theorem Rope.wf_leaf_iff (lf : Leaf) : (Rope.leaf lf).wf ↔ LeafWF lf := by
  simp [Rope.wf]

theorem ORope.wf_some_iff (rp : Rope) : (ORope.some rp).wf ↔ rp.wf := by
  simp [ORope.wf]

theorem Rope.wf_new (s : List Char) : (Rope.new s).wf := by
  rw [Rope.new, Rope.wf_leaf_iff]
  exact LeafWF_new s

theorem Leaf.split_parts_wf (lf : Leaf) (o : Nat) (p : Leaf × Leaf)
    (h : lf.split o = some p) : LeafWF p.1 ∧ LeafWF p.2 := by
  obtain ⟨x, y⟩ := p
  rw [Leaf.split] at h
  split_ifs at h
  · simp only [Option.some.injEq, Prod.mk.injEq] at h
    obtain ⟨hx, hy⟩ := h
    subst hx; subst hy
    exact ⟨LeafWF_new _, LeafWF_new _⟩
  · simp only [Option.some.injEq, Prod.mk.injEq] at h
    obtain ⟨hx, hy⟩ := h
    subst hx; subst hy
    exact ⟨LeafWF_new _, LeafWF_new _⟩
  · simp only [Option.some.injEq, Prod.mk.injEq] at h
    obtain ⟨hx, hy⟩ := h
    subst hx; subst hy
    exact ⟨LeafWF_new _, LeafWF_new _⟩

theorem Rope.join_wf {a b c : Rope} (ha : a.wf) (hb : b.wf)
    (h : Rope.join a b = some c) : c.wf := by
  rw [Rope.join] at h
  cases hl : a.length with
  | none => rw [hl] at h; exact Option.noConfusion h
  | some n =>
    rw [hl] at h
    simp only [Option.map_some'] at h
    have hc := Option.some.inj h
    subst hc
    rw [Rope.wf_node_iff]
    exact ⟨(ORope.wf_some_iff a).mpr ha, (ORope.wf_some_iff b).mpr hb⟩

theorem Rope.split_node (w : Nat) (l r : ORope) (o : Nat) :
    Rope.split (.node w l r) o =
      if o < w then
        match l with
        | .none => none
        | .some lc => afterSplitLeft (lc.split o) w r
      else
        match r with
        | .none => none
        | .some rc => afterSplitRight (rc.split (o - w)) w l := by
  rw [Rope.split.eq_def]

theorem Rope.split_wf_aux : ∀ (n : Nat) (a : Rope), a.sz ≤ n → a.wf →
    ∀ (o : Nat) (t : Rope × Rope × Rope), a.split o = some t →
      t.1.wf ∧ t.2.1.wf ∧ t.2.2.wf := by
  intro n
  induction n with
  | zero =>
    intro a hsz
    exact absurd hsz (by have := Rope.sz_pos a; omega)
  | succ n ih =>
    intro a hsz ha o t h
    cases a with
    | leaf lf =>
      simp only [Rope.split] at h
      cases hs : lf.split o with
      | none => rw [hs] at h; exact Option.noConfusion h
      | some p =>
        obtain ⟨x, y⟩ := p
        rw [hs] at h
        have ht := Option.some.inj h
        subst ht
        obtain ⟨w1, w2⟩ := Leaf.split_parts_wf lf o (x, y) hs
        exact ⟨(Rope.wf_leaf_iff x).mpr w1, (Rope.wf_leaf_iff y).mpr w2, ha⟩
    | node w l r =>
      have haw := (Rope.wf_node_iff w l r).mp ha
      rw [Rope.split_node] at h
      by_cases how : o < w
      · rw [if_pos how] at h
        cases l with
        | none => exact Option.noConfusion h
        | some lc =>
          replace h : afterSplitLeft (lc.split o) w r = some t := h
          have hlw : lc.wf := (ORope.wf_some_iff lc).mp haw.1
          rw [afterSplitLeft.eq_def] at h
          cases hs : lc.split o with
          | none => rw [hs] at h; exact Option.noConfusion h
          | some q =>
            obtain ⟨sl, sr, lres⟩ := q
            rw [hs] at h
            have hszlc : lc.sz ≤ n := by
              have h1 : ORope.sz (.some lc) = lc.sz + 1 := by simp [ORope.sz]
              have h2 : (Rope.node w (.some lc) r).sz
                  = ORope.sz (.some lc) + ORope.sz r + 1 := by simp [Rope.sz]
              omega
            obtain ⟨w1, w2, w3⟩ := ih lc hszlc hlw o (sl, sr, lres) hs
            cases r with
            | none => exact Option.noConfusion h
            | some rc =>
              have hrw : rc.wf := (ORope.wf_some_iff rc).mp haw.2
              replace h : (match Rope.join sr rc with
                | Option.none => none
                | Option.some j =>
                  some (sl, j, Rope.node w (.some lres) .none)) = some t := h
              cases hj : Rope.join sr rc with
              | none => rw [hj] at h; exact Option.noConfusion h
              | some j =>
                rw [hj] at h
                have ht := Option.some.inj h
                subst ht
                refine ⟨w1, Rope.join_wf w2 hrw hj, ?_⟩
                rw [Rope.wf_node_iff]
                exact ⟨(ORope.wf_some_iff lres).mpr w3, by simp [ORope.wf]⟩
      · rw [if_neg how] at h
        cases r with
        | none => exact Option.noConfusion h
        | some rc =>
          replace h : afterSplitRight (rc.split (o - w)) w l = some t := h
          have hrw : rc.wf := (ORope.wf_some_iff rc).mp haw.2
          rw [afterSplitRight.eq_def] at h
          cases hs : rc.split (o - w) with
          | none => rw [hs] at h; exact Option.noConfusion h
          | some q =>
            obtain ⟨sl, sr, rres⟩ := q
            rw [hs] at h
            have hszrc : rc.sz ≤ n := by
              have h1 : ORope.sz (.some rc) = rc.sz + 1 := by simp [ORope.sz]
              have h2 : (Rope.node w l (.some rc)).sz
                  = ORope.sz l + ORope.sz (.some rc) + 1 := by simp [Rope.sz]
              omega
            obtain ⟨w1, w2, w3⟩ := ih rc hszrc hrw (o - w) (sl, sr, rres) hs
            replace h : (match Rope.join sl rres with
              | Option.none => none
              | Option.some j => some (j, sr, Rope.node w l .none))
                = some t := h
            cases hj : Rope.join sl rres with
            | none => rw [hj] at h; exact Option.noConfusion h
            | some j =>
              rw [hj] at h
              have ht := Option.some.inj h
              subst ht
              refine ⟨Rope.join_wf w1 w3 hj, w2, ?_⟩
              rw [Rope.wf_node_iff]
              exact ⟨haw.1, by simp [ORope.wf]⟩

theorem Rope.split_wf (a : Rope) (ha : a.wf) (o : Nat) (t : Rope × Rope × Rope)
    (h : a.split o = some t) : t.1.wf ∧ t.2.1.wf ∧ t.2.2.wf :=
  Rope.split_wf_aux a.sz a (Nat.le_refl _) ha o t h

theorem Rope.insert_wf (a : Rope) (ha : a.wf) (s : List Char) (o : Nat)
    (b : Rope) (h : a.insert s o = some b) : b.wf := by
  rw [Rope.insert] at h
  cases hs : a.split o with
  | none => rw [hs] at h; exact Option.noConfusion h
  | some t =>
    obtain ⟨l, r, rest⟩ := t
    rw [hs] at h
    obtain ⟨wl, wr, _⟩ := Rope.split_wf a ha o (l, r, rest) hs
    replace h : (match Rope.join l (Rope.new s) with
      | Option.none => none
      | Option.some tmp => Rope.join tmp r) = some b := h
    cases hj : Rope.join l (Rope.new s) with
    | none => rw [hj] at h; exact Option.noConfusion h
    | some tmp =>
      rw [hj] at h
      exact Rope.join_wf (Rope.join_wf wl (Rope.wf_new s) hj) wr h

theorem Rope.delete_wf (a : Rope) (ha : a.wf) (i j : Nat) (b : Rope)
    (h : a.delete i j = some b) : b.wf := by
  rw [Rope.delete] at h
  cases hs : a.split i with
  | none => rw [hs] at h; exact Option.noConfusion h
  | some t =>
    obtain ⟨l, r, rest⟩ := t
    rw [hs] at h
    obtain ⟨wl, wr, _⟩ := Rope.split_wf a ha i (l, r, rest) hs
    replace h : (match r.split (wadd (wsub j i) 1) with
      | Option.none => none
      | Option.some (_, r2, _) => Rope.join l r2) = some b := h
    cases hs2 : r.split (wadd (wsub j i) 1) with
    | none => rw [hs2] at h; exact Option.noConfusion h
    | some t2 =>
      obtain ⟨l2, r2, rest2⟩ := t2
      rw [hs2] at h
      obtain ⟨_, wr2, _⟩ := Rope.split_wf r wr _ (l2, r2, rest2) hs2
      exact Rope.join_wf wl wr2 h

/-- C9: every leaf of a rope reachable through the public operations
(`new`, `join`, `split` — including the consumed source's residue —
`insert`, `delete`) has `start == 0` and `end == buf.len() - 1`, because
leaf construction and leaf splitting always materialize a fresh buffer;
consequently such a leaf's declared view is its entire backing buffer
(its `weight` is the buffer length). -/
theorem C9_reachable_leaf_invariant :
    (∀ rp : Rope, Reachable rp → rp.wf) ∧
      (∀ lf : Leaf, LeafWF lf → lf.buf.length < W →
        lf.weight = lf.buf.length) := by
  constructor
  · intro rp h
    induction h with
    | new s => exact Rope.wf_new s
    | join a b c _ _ hj iha ihb => exact Rope.join_wf iha ihb hj
    | splitLeft a o t _ hs ih => exact (Rope.split_wf a ih o t hs).1
    | splitRight a o t _ hs ih => exact (Rope.split_wf a ih o t hs).2.1
    | splitResidue a o t _ hs ih => exact (Rope.split_wf a ih o t hs).2.2
    | insert a s o b _ hi ih => exact Rope.insert_wf a ih s o b hi
    | delete a i j b _ hd ih => exact Rope.delete_wf a ih i j b hd
  · intro lf hwf hlen
    obtain ⟨h0, h1⟩ := hwf
    have hsame : lf.weight = (Leaf.new lf.buf).weight := by
      simp [Leaf.weight, Leaf.new, h0, h1]
    rw [hsame, Leaf.new_weight _ hlen]

theorem C9_witness :
    (Rope.new ['a']).wf ∧
      (Leaf.new ['a']).weight = (Leaf.new ['a']).buf.length :=
  ⟨C9_reachable_leaf_invariant.1 _ (Reachable.new ['a']),
    C9_reachable_leaf_invariant.2 (Leaf.new ['a']) ⟨rfl, rfl⟩ (by decide)⟩
